import Mathlib

/-!
# Verification of the Galois memory subsystem and chunked worklist

A shallow embedding of the heap building blocks in
`src/include/Galois/Runtime/mm/Mem.h` (the `SimpleBumpPtr`,
`SimpleBumpPtrWithMallocFallback`, `BlockAlloc`, `FreeListHeap`,
`SelfLockFreeListHeap`, `AddHeader`/`OwnerTaggedHeap` layers) and of the
chunked worklist `ChunkedMaster` from the same source tree, together with
theorems checking the claims of the specification about them.

Machine pointers are modelled as natural numbers (`0` is the null pointer).
The page source (`pageAlloc`, whose definition is outside the tree) is
modelled as an abstract page-address supply `supply : Nat → Nat` together
with the hypotheses `GoodSupply` stating what the spec guarantees about OS
pages: 8-byte alignment, non-nullness, and pairwise disjointness of page
ranges.  `sizeof(double) = 8` and `sizeof(void*) = 8` (LP64), so the
per-page `Block` header of the bump heap occupies 8 bytes.
-/

namespace GaloisMM

/-- `(size + sizeof(double) - 1) & ~(sizeof(double) - 1)`: round `size`
up to the next multiple of 8, as computed in `SimpleBumpPtr::allocate`. -/
def roundUp8 (n : Nat) : Nat := (n + 7) / 8 * 8

/-- State of a `SimpleBumpPtr` heap.  The intrusive chain of pages is
represented by the number of pages pulled from the source heap so far:
the page pulled by the `k`-th refill has base address `supply k`, and
`head` is null iff `pagesPulled = 0` (the current page, when one exists,
is `supply (pagesPulled - 1)`). -/
structure BumpState where
  pagesPulled : Nat
  offset : Nat
deriving Repr, DecidableEq

/-- The fresh state built by `SimpleBumpPtr()`: `head(0), offset(0)`. -/
def bumpInit : BumpState := ⟨0, 0⟩

/-- `SimpleBumpPtr::refill`: pull a new page from the source heap, link it
in front of the chain, and set `offset = sizeof(Block) = 8`. -/
def bumpRefill (st : BumpState) : BumpState := ⟨st.pagesPulled + 1, 8⟩

/-- Address of the current page (`head`); `0` models the null pointer. -/
def bumpHead (supply : Nat → Nat) (st : BumpState) : Nat :=
  if st.pagesPulled = 0 then 0 else supply (st.pagesPulled - 1)

/-- `SimpleBumpPtr::allocate(size_t size)` over pages of `A` bytes
(`SourceHeap::AllocSize = A`).  Returns `none` when the C++ code throws
`std::bad_alloc` (the rounded request does not fit in a fresh page), and
`some ptr` with the bumped state otherwise. -/
def bumpAllocate (A : Nat) (supply : Nat → Nat) (st : BumpState) (size : Nat) :
    Option Nat × BumpState :=
  let a := roundUp8 size
  let st1 := if st.pagesPulled = 0 ∨ st.offset + a > A then bumpRefill st else st
  if st1.offset + a > A then (none, st1)
  else (some (bumpHead supply st1 + st1.offset), ⟨st1.pagesPulled, st1.offset + a⟩)

/-- One operation of an `allocate(s)` / `deallocate(p, s)` call sequence. -/
inductive HeapOp where
  | alloc (s : Nat)
  | dealloc (p s : Nat)
deriving Repr, DecidableEq

/-- A step of the bump heap: `deallocate` is a no-op
(`inline void deallocate(void* ptr, size_t len) {}`). -/
def bumpStep (A : Nat) (supply : Nat → Nat) (st : BumpState) :
    HeapOp → Option Nat × BumpState
  | .alloc s => bumpAllocate A supply st s
  | .dealloc _ _ => (none, st)

/-- Run a sequence of operations on the bump heap, collecting the pointers
returned by the successful allocations in order. -/
def bumpRun (A : Nat) (supply : Nat → Nat) (st : BumpState) :
    List HeapOp → List Nat × BumpState
  | [] => ([], st)
  | op :: ops =>
    let r := bumpStep A supply st op
    let rest := bumpRun A supply r.2 ops
    (r.1.toList ++ rest.1, rest.2)

/-- Modelled from the spec: the page source (`pageAlloc` in
`Galois/Runtime/mm`, defined outside the tree) hands out large pages that
are 8-byte aligned, non-null, and pairwise disjoint as `A`-byte ranges
("Maintains a process-global singly linked freelist of pages", each page a
"fixed-size ... contiguous byte block" owned by one heap at a time). -/
def GoodSupply (A : Nat) (supply : Nat → Nat) : Prop :=
  (∀ k, 8 ∣ supply k) ∧ (∀ k, supply k ≠ 0) ∧
  (∀ j k, j < k → supply j + A ≤ supply k ∨ supply k + A ≤ supply j)

/-- A concrete page supply used for closed test instances: page `k` is the
4096-byte page at base `4096 * (k + 1)`. -/
def pageSupply (k : Nat) : Nat := 4096 * (k + 1)

/-- `SimpleBumpPtr::allocate(size_t size, size_t& allocated)` over pages of
`A` bytes.  Returns `((ptr, allocated), newState)`.  `(char*)head + offset`
is modelled by `bumpHead supply st1 + st1.offset`, which is `0 + offset`
when `head` is still null. -/
def bumpAllocate2 (A : Nat) (supply : Nat → Nat) (st : BumpState) (size : Nat) :
    (Nat × Nat) × BumpState :=
  let a0 := min (roundUp8 size) A
  let r :=
    if st.pagesPulled = 0 ∨ st.offset + a0 > A then
      let remaining := A - st.offset
      if remaining = 0 then (bumpRefill st, a0) else (st, remaining)
    else (st, a0)
  let st1 := r.1
  let a1 := r.2
  ((bumpHead supply st1 + st1.offset, min a1 size), ⟨st1.pagesPulled, st1.offset + a1⟩)

/-- State of a `SimpleBumpPtrWithMallocFallback` heap: pages pulled from the
source heap, blocks obtained from `malloc` (their addresses are supplied by
`msupply`), and the bump offset in the current page. -/
structure FbState where
  pagesPulled : Nat
  mallocs : Nat
  offset : Nat
deriving Repr, DecidableEq

/-- `SimpleBumpPtrWithMallocFallback::allocate(size_t size)`: oversize
requests (`sizeof(Block) + alignedSize > AllocSize`) go straight to
`malloc` and return `(char*)p + sizeof(Block)`; others follow the bump
path.  The C++ body contains no failure path, which the `Option` result
records: no branch produces `none`. -/
def fbAllocate (A : Nat) (supply msupply : Nat → Nat) (st : FbState) (size : Nat) :
    Option Nat × FbState :=
  let a := roundUp8 size
  if 8 + a > A then
    (some (msupply st.mallocs + 8), ⟨st.pagesPulled, st.mallocs + 1, st.offset⟩)
  else
    let st1 := if st.pagesPulled = 0 ∨ st.offset + a > A then
        (⟨st.pagesPulled + 1, st.mallocs, 8⟩ : FbState)
      else st
    (some (supply (st1.pagesPulled - 1) + st1.offset),
      ⟨st1.pagesPulled, st1.mallocs, st1.offset + a⟩)

/-- `1 ≤ s` for an `alloc` operation (the sizes for which the amended
distinctness claim holds), trivially true for `dealloc`. -/
def opPos : HeapOp → Bool
  | .alloc s => 1 ≤ s
  | .dealloc _ _ => true

/-- An allocation record: the index of the page an allocation came from and
its byte offset within that page. -/
def recAddr (supply : Nat → Nat) (r : Nat × Nat) : Nat := supply r.1 + r.2

/-- A record denotes a well-placed slot: at least the 8-byte page header
deep, 8-byte aligned, and ending within the `A`-byte page. -/
def RecIn (A : Nat) (r : Nat × Nat) : Prop := 8 ≤ r.2 ∧ r.2 + 8 ≤ A ∧ 8 ∣ r.2

/-- Strict lexicographic order on records: earlier page, or same page at a
lower offset. -/
def recLt (r r' : Nat × Nat) : Prop := r.1 < r'.1 ∨ (r.1 = r'.1 ∧ r.2 < r'.2)

/-- The record is at or after the current position of the bump heap. -/
def recGe (st : BumpState) (r : Nat × Nat) : Prop :=
  st.pagesPulled ≤ r.1 + 1 ∧ (st.pagesPulled = r.1 + 1 → st.offset ≤ r.2)

/-- Invariant of reachable `SimpleBumpPtr` states. -/
def BumpInv (A : Nat) (st : BumpState) : Prop :=
  st.offset ≤ A ∧ 8 ∣ st.offset ∧
  (st.pagesPulled = 0 → st.offset = 0) ∧ (st.pagesPulled ≠ 0 → 8 ≤ st.offset)

/-- `sizeof(TyEq)` in `BlockAlloc<ElemSize, _>`: the element size rounded
up to a multiple of `sizeof(double) = 8`. -/
def blkElem (ElemSize : Nat) : Nat := roundUp8 ElemSize

/-- `TotalFit` in `BlockAlloc`: `BytesLeft = AllocSize - sizeof(Block_basic)`
with `sizeof(Block_basic) = 8 + sizeof(TyEq)`, `BytesLeftR = BytesLeft & ~7`,
`FitLeft = BytesLeftR / sizeof(TyEq)`, `TotalFit = FitLeft + 1`. -/
def blkTotalFit (A ElemSize : Nat) : Nat :=
  ((A - (8 + blkElem ElemSize)) - (A - (8 + blkElem ElemSize)) % 8)
    / blkElem ElemSize + 1

/-- State of a `BlockAlloc` heap: number of pages pulled from the source
heap (`head` is null iff zero) and the slot index `headIndex` in the
current page. -/
structure BlkState where
  pagesPulled : Nat
  headIndex : Nat
deriving Repr, DecidableEq

/-- `BlockAlloc()`: `head(0), headIndex(0)`. -/
def blkInit : BlkState := ⟨0, 0⟩

/-- `BlockAlloc::refill`: pull a page, link it, reset `headIndex = 0`. -/
def blkRefill (st : BlkState) : BlkState := ⟨st.pagesPulled + 1, 0⟩

/-- `BlockAlloc::allocate(size)` (the assert `size == ElemSize` is
debug-only): refill when `!head || headIndex == TotalFit`, then hand out
`&head->data[headIndex++]`, i.e. the slot at byte offset
`8 + headIndex * sizeof(TyEq)` of the current page. -/
def blkAllocate (A ElemSize : Nat) (supply : Nat → Nat) (st : BlkState) :
    Nat × BlkState :=
  let st1 := if st.pagesPulled = 0 ∨ st.headIndex = blkTotalFit A ElemSize
    then blkRefill st else st
  (supply (st1.pagesPulled - 1) + 8 + st1.headIndex * blkElem ElemSize,
   ⟨st1.pagesPulled, st1.headIndex + 1⟩)

/-- `n` consecutive `allocate(ElemSize)` calls on a `BlockAlloc` heap
(`deallocate` is a no-op and does not change the state). -/
def blkRunN (A ElemSize : Nat) (supply : Nat → Nat) (st : BlkState) :
    Nat → List Nat × BlkState
  | 0 => ([], st)
  | n + 1 =>
    let r := blkAllocate A ElemSize supply st
    let rest := blkRunN A ElemSize supply r.2 n
    (r.1 :: rest.1, rest.2)

/-- Invariant of reachable `BlockAlloc` states. -/
def BlkInv (A ElemSize : Nat) (st : BlkState) : Prop :=
  st.headIndex ≤ blkTotalFit A ElemSize ∧ (st.pagesPulled = 0 → st.headIndex = 0)

/-- The record is at or after the current position of the block heap. -/
def blkRecGe (A ElemSize : Nat) (st : BlkState) (r : Nat × Nat) : Prop :=
  st.pagesPulled ≤ r.1 + 1 ∧
  (st.pagesPulled = r.1 + 1 → 8 + st.headIndex * blkElem ElemSize ≤ r.2)

/-- The pointers of a run are 8-byte aligned, non-null, and pairwise
distinct. -/
def PtrsOK (l : List Nat) : Prop :=
  (∀ p ∈ l, 8 ∣ p ∧ p ≠ 0) ∧ l.Pairwise (fun p q => p ≠ q)

/-- One operation on a freelist heap. -/
inductive FLOp where
  | alloc
  | dealloc (p : Nat)
  | clear
deriving Repr, DecidableEq

/-- State of a `FreeListHeap` (or, run single-threadedly, a
`SelfLockFreeListHeap`): the pooled block addresses with the list head
first, and a counter driving the fresh results of the inner heap. -/
structure FLState where
  pool : List Nat
  innerCtr : Nat
deriving Repr, DecidableEq

/-- `FreeListHeap::allocate`: pop the freelist head if there is one,
otherwise delegate to the inner heap (whose `k`-th result is `inner k`).
The boolean records whether the block came from the pool. -/
def flAllocate (inner : Nat → Nat) (st : FLState) : (Nat × Bool) × FLState :=
  match st.pool with
  | p :: rest => ((p, true), ⟨rest, st.innerCtr⟩)
  | [] => ((inner st.innerCtr, false), ⟨[], st.innerCtr + 1⟩)

/-- `FreeListHeap::deallocate`: `if (!ptr) return;` then prepend the block
to the freelist. -/
def flDealloc (st : FLState) (p : Nat) : FLState :=
  if p = 0 then st else ⟨p :: st.pool, st.innerCtr⟩

/-- `SelfLockFreeListHeap::deallocate`, run single-threadedly: the same
null check followed by a CAS push, which sequentially is a prepend. -/
def slflDealloc (st : FLState) (p : Nat) : FLState :=
  if p = 0 then st else ⟨p :: st.pool, st.innerCtr⟩

/-- `FreeListHeap::clear`: return every pooled block to the inner heap,
leaving the pool empty. -/
def flClear (st : FLState) : FLState := ⟨[], st.innerCtr⟩

/-- A step of the freelist heap; an `alloc` records the returned pointer
and its provenance. -/
def flStep (inner : Nat → Nat) (st : FLState) : FLOp → Option (Nat × Bool) × FLState
  | .alloc => (some (flAllocate inner st).1, (flAllocate inner st).2)
  | .dealloc p => (none, flDealloc st p)
  | .clear => (none, flClear st)

/-- Run a sequence of freelist operations, collecting the event of each
step. -/
def flRun (inner : Nat → Nat) (st : FLState) :
    List FLOp → List (Option (Nat × Bool)) × FLState
  | [] => ([], st)
  | op :: ops =>
    let r := flStep inner st op
    let rest := flRun inner r.2 ops
    (r.1 :: rest.1, rest.2)

/-- State of an `OwnerTaggedHeap`: a counter driving the inner-heap
fresh raw blocks (`raw k` is the `k`-th one) and the memory holding the
stored headers. -/
structure OTState where
  ctr : Nat
  mem : Nat → Nat

/-- A fresh `OwnerTaggedHeap` over zeroed memory. -/
def otInit : OTState := ⟨0, fun _ => 0⟩

/-- `OwnerTaggedHeap::allocate` for a heap at address `self`:
`AddHeader<void*,_>::allocate` obtains a raw block and returns it shifted
by `offset = (sizeof(void*) + 7) & ~7 = 8`; the owner pointer `this` is
then stored through `getHeader`, i.e. at the raw address. -/
def otAllocate (raw : Nat → Nat) (self : Nat) (st : OTState) : Nat × OTState :=
  (raw st.ctr + 8,
   ⟨st.ctr + 1, fun a => if a = raw st.ctr then self else st.mem a⟩)

/-- `OwnerTaggedHeap::owner(ptr)`: read the header
`*(getHeader(ptr)) = *(ptr - 8)`. -/
def otOwner (st : OTState) (p : Nat) : Nat := st.mem (p - 8)

/-- The `assert(*(Src::getHeader(ptr)) == this)` in
`OwnerTaggedHeap::deallocate`. -/
def otDeallocOk (st : OTState) (self p : Nat) : Bool := otOwner st p == self

/-- Run one `allocate` per element of `sizes` (the requested size only
affects how much the inner heap hands out, not the header layout),
collecting the returned pointers. -/
def otRun (raw : Nat → Nat) (self : Nat) (st : OTState) :
    List Nat → List Nat × OTState
  | [] => ([], st)
  | _ :: sizes =>
    let r := otAllocate raw self st
    let rest := otRun raw self r.2 sizes
    (r.1 :: rest.1, rest.2)

/-- Modelled from the spec: a `FixedSizeRing<T, ChunkSize>` chunk
(`Galois/FixedSizeRing.h` is not in the source tree; spec 4.E: "A
contiguous fixed-capacity ring with head and tail indices", with
`emplace_back(args) → pointer-to-slot` failing exactly on a full ring).
A chunk is represented by its task sequence, front first.
`emplace_back` returns `none` (a null slot) iff the ring is full. -/
def ringEmplaceBack (cap : Nat) (r : List Nat) (x : Nat) : Option (List Nat) :=
  if r.length < cap then some (r ++ [x]) else none

/-- Modelled from the spec (4.E): `extract_front` returns and removes the
front element, or an empty optional on an empty ring. -/
def ringExtractFront (r : List Nat) : Option Nat × List Nat := (r.head?, r.tail)

/-- Modelled from the spec (4.E): `extract_back` returns and removes the
back element, or an empty optional on an empty ring. -/
def ringExtractBack (r : List Nat) : Option Nat × List Nat := (r.getLast?, r.dropLast)

/-- The single-threaded state of a `ChunkedMaster` worklist (spec 4.F
non-concurrent specialization: one `{cur, next}` record and one shared
container).  Chunk handles are nullable; the shared container holds its
chunks in pop order (front popped first). -/
structure WLState where
  cur : Option (List Nat)
  next : Option (List Nat)
  shared : List (List Nat)
deriving Repr, DecidableEq

/-- A fresh worklist: null `cur` and `next`, empty shared container. -/
def wlInit : WLState := ⟨none, none, []⟩

/-- Modelled from the spec: `pushChunk` into the shared container, kept in
pop order: a `ConExtLinkedStack` (Treiber stack; the pushed chunk becomes
the next pop) for the LIFO worklists, a `ConExtLinkedQueue` (two-lock
queue; the pushed chunk is popped last) for the FIFO ones
(`WorkListHelpers.h` is not in the source tree; spec 4.F "Concurrency of
shared container"). -/
def pushChunkC : Bool → List (List Nat) → List Nat → List (List Nat)
  | true, s, c => c :: s
  | false, s, c => s ++ [c]

/-- `popChunk` in the single-container case: both containers pop the
front of the pop-order list. -/
def popChunkC (s : List (List Nat)) : Option (List Nat) × List (List Nat) :=
  match s with
  | [] => (none, [])
  | c :: rest => (some c, rest)

/-- `ChunkedMaster::emplacei(p& n, args...)`: try `n.next->emplace_back`;
on failure publish the full `next` via `pushChunk`, make a fresh chunk
(`mkChunk`), and emplace into it.  The boolean is `retval != nullptr` for
the final `assert(retval)`. -/
def emplacei (isStack : Bool) (cap : Nat) (st : WLState) (x : Nat) :
    Bool × WLState :=
  match st.next with
  | some nx =>
    match ringEmplaceBack cap nx x with
    | some nx' => (true, ⟨st.cur, some nx', st.shared⟩)
    | none =>
      match ringEmplaceBack cap [] x with
      | some c0 => (true, ⟨st.cur, some c0, pushChunkC isStack st.shared nx⟩)
      | none => (false, ⟨st.cur, some [], pushChunkC isStack st.shared nx⟩)
  | none =>
    match ringEmplaceBack cap [] x with
    | some c0 => (true, ⟨st.cur, some c0, st.shared⟩)
    | none => (false, ⟨st.cur, some [], st.shared⟩)

/-- `ChunkedMaster::push(const value_type&)`. -/
def wlPush (isStack : Bool) (cap : Nat) (st : WLState) (x : Nat) : WLState :=
  (emplacei isStack cap st x).2

/-- `ChunkedMaster::push(Iter b, Iter e)`: push a range one task at a
time. -/
def wlPushAll (isStack : Bool) (cap : Nat) (st : WLState) (xs : List Nat) :
    WLState :=
  xs.foldl (wlPush isStack cap) st

/-- The tail of `ChunkedMaster::pop` in the `IsStack` branch once `next`
is absent or exhausted (the empty chunk having been `delChunk`ed):
`n.next = popChunk(); if (n.next) return n.next->extract_back();`. -/
def wlStackRefill (st : WLState) : Option Nat × WLState :=
  match popChunkC st.shared with
  | (some c, sh) => ((ringExtractBack c).1, ⟨st.cur, some (ringExtractBack c).2, sh⟩)
  | (none, sh) => (none, ⟨st.cur, none, sh⟩)

/-- The tail of `ChunkedMaster::pop` in the FIFO branch once `cur` is
absent or exhausted: `n.cur = popChunk(); if (!n.cur) { n.cur = n.next;
n.next = 0; } if (n.cur) return n.cur->extract_front();`. -/
def wlFifoRefill (st : WLState) : Option Nat × WLState :=
  match popChunkC st.shared with
  | (some c, sh) => ((ringExtractFront c).1, ⟨some (ringExtractFront c).2, st.next, sh⟩)
  | (none, sh) =>
    match st.next with
    | some nx => ((ringExtractFront nx).1, ⟨some (ringExtractFront nx).2, none, sh⟩)
    | none => (none, ⟨none, none, sh⟩)

/-- `ChunkedMaster::pop()`: the `IsStack` (LIFO) branch pops the back of
`next`, the FIFO branch the front of `cur`, each falling back to the
shared container (and, for FIFO, finally to `next`). -/
def wlPop : Bool → WLState → Option Nat × WLState
  | true, st =>
    match st.next with
    | some nx =>
      match ringExtractBack nx with
      | (some v, nx') => (some v, ⟨st.cur, some nx', st.shared⟩)
      | (none, _) => wlStackRefill st
    | none => wlStackRefill st
  | false, st =>
    match st.cur with
    | some cu =>
      match ringExtractFront cu with
      | (some v, cu') => (some v, ⟨some cu', st.next, st.shared⟩)
      | (none, _) => wlFifoRefill st
    | none => wlFifoRefill st

/-- Pop repeatedly (at most `fuel` times), stopping at the first empty
result; with fuel exceeding the task count this is "pop until empty". -/
def wlPopN (isStack : Bool) : Nat → WLState → List Nat
  | 0, _ => []
  | fuel + 1, st =>
    match wlPop isStack st with
    | (some v, st') => v :: wlPopN isStack fuel st'
    | (none, _) => []

/-- The tasks remaining in the worklist, in the order `pop` will deliver
them: LIFO reads `next` back-to-front and then each shared chunk (in pop
order) back-to-front; FIFO reads `cur`, then the shared chunks, then
`next`, each front-to-back. -/
def wlRem : Bool → WLState → List Nat
  | true, st => (st.next.getD []).reverse ++ (st.shared.map List.reverse).flatten
  | false, st => (st.cur.getD []) ++ st.shared.flatten ++ (st.next.getD [])

/-- Reachable-state invariant: chunks in the shared container are
non-empty (only full chunks are ever published). -/
def wlWF (st : WLState) : Prop := ∀ c ∈ st.shared, c ≠ []

/-- `SelfLockFreeListHeap::allocate`, run single-threadedly: the locked
CAS loop pops the freelist head; when the list is empty (`!OH`) it
unlocks and delegates to the inner heap (whose `k`-th result is
`inner k`).  The boolean records whether the block came from the pool. -/
def slflAllocate (inner : Nat → Nat) (st : FLState) : (Nat × Bool) × FLState :=
  match st.pool with
  | p :: rest => ((p, true), ⟨rest, st.innerCtr⟩)
  | [] => ((inner st.innerCtr, false), ⟨[], st.innerCtr + 1⟩)

/-- `LockedHeap::allocate`: take the lock, call `RealHeap::allocate`,
release the lock, and return the delegated result unchanged — the layer
has no failure path of its own.  `r` is the inner result (`none` models
an inner failure). -/
def lockedAllocate (r : Option Nat) : Option Nat := r

/-- `ZeroOut::allocate`: delegate, `memset(retval, 0, size)`, and return
the delegated pointer unchanged.  `r` is the inner result. -/
def zeroOutAllocate (r : Option Nat) : Option Nat := r

/-- `AddHeader<Header,_>::allocate`: delegate with `size + offset` and
return the inner pointer shifted by
`offset = (sizeof(Header) + sizeof(double) - 1) & ~(sizeof(double) - 1)`.
`r` is the inner result and `hdrSize` is `sizeof(Header)`. -/
def addHeaderAllocate (hdrSize : Nat) (r : Option Nat) : Option Nat :=
  r.map (fun p => p + roundUp8 hdrSize)

/-- `ThreadAwarePrivateHeap::allocate`:
`heaps.getLocal()->allocate(size, args...)` — forward the request to the
heap instance owned by the calling thread and return its result
unchanged.  `r` is the result of that instance. -/
def threadAwarePrivateAllocate (r : Option Nat) : Option Nat := r

/-- `bumpRun` over an appended operation list runs the two halves in
sequence, concatenating the returned pointers. -/
lemma bumpRun_append (A : Nat) (supply : Nat → Nat) (l1 l2 : List HeapOp) :
    ∀ st : BumpState,
      bumpRun A supply st (l1 ++ l2)
        = ((bumpRun A supply st l1).1
             ++ (bumpRun A supply (bumpRun A supply st l1).2 l2).1,
           (bumpRun A supply (bumpRun A supply st l1).2 l2).2) := by
  induction l1 with
  | nil => intro st; simp [bumpRun]
  | cons op l1 ih => intro st; simp [bumpRun, ih]

/-- Closed form of a burst of `allocate(8)` calls that stays inside the
current 4 KiB page: the offset advances by 8 per call and the pointers
walk the page in 8-byte steps. -/
lemma bump8_run (p : Nat) :
    ∀ (k off : Nat), off + 8 * k ≤ 4096 →
      bumpRun 4096 pageSupply ⟨p + 1, off⟩ (List.replicate k (HeapOp.alloc 8))
        = ((List.range k).map (fun i => pageSupply p + off + 8 * i),
           ⟨p + 1, off + 8 * k⟩) := by
  intro k
  induction k with
  | zero => intro off _; simp [bumpRun]
  | succ k ih =>
    intro off hoff
    have h8 : roundUp8 8 = 8 := rfl
    have hcond : ¬(p + 1 = 0 ∨ off + roundUp8 8 > 4096) := by
      rw [h8]; omega
    have hstep : bumpStep 4096 pageSupply ⟨p + 1, off⟩ (HeapOp.alloc 8)
        = (some (pageSupply p + off), ⟨p + 1, off + 8⟩) := by
      simp only [bumpStep, bumpAllocate, h8, if_neg hcond]
      have : ¬((⟨p + 1, off⟩ : BumpState).offset + 8 > 4096) := by
        simp only []; omega
      simp [bumpHead, this]
    have ihh := ih (off + 8) (by omega)
    rw [List.replicate_succ]
    simp only [bumpRun, hstep, ihh]
    rw [List.range_succ_eq_map]
    simp only [List.map_cons, List.map_map, Option.toList_some, List.cons_append,
      List.nil_append, Nat.mul_zero, Nat.add_zero, Prod.mk.injEq, List.cons.injEq,
      BumpState.mk.injEq]
    refine ⟨⟨trivial, ?_⟩, trivial, by omega⟩
    apply List.map_congr_left
    intro i _
    simp only [Function.comp_apply]
    omega

/-- The first 512 `allocate(8)` calls: 511 calls exactly fill the first
page; the 512th pulls the second page and returns its first slot `8200`. -/
lemma bump8_first512 :
    bumpRun 4096 pageSupply bumpInit (List.replicate 512 (HeapOp.alloc 8))
      = (4104 :: (List.range 510).map (fun i => 4112 + 8 * i) ++ [8200],
         ⟨2, 16⟩) := by
  have e1 : (512 : Nat) = 1 + (510 + 1) := by omega
  rw [e1, List.replicate_add, bumpRun_append]
  have hfirst : bumpRun 4096 pageSupply bumpInit (List.replicate 1 (HeapOp.alloc 8))
      = ([4104], ⟨1, 16⟩) := by decide
  rw [hfirst]
  have hmid := bump8_run 0 510 16 (by omega)
  rw [List.replicate_add, bumpRun_append, hmid]
  have hlast : bumpRun 4096 pageSupply ⟨1, 4096⟩ (List.replicate 1 (HeapOp.alloc 8))
      = ([8200], ⟨2, 16⟩) := by decide
  have e2 : (16 + 8 * 510 : Nat) = 4096 := by omega
  rw [e2] at hmid ⊢
  rw [hlast]
  have : ∀ i, pageSupply 0 + 16 + 8 * i = 4112 + 8 * i := by
    intro i; simp [pageSupply]
  simp [this]

/-- **C4.** Bump allocator over 4 KiB pages, 600 consecutive `allocate(8)`
calls from a fresh heap: after 511 allocations a single page has been
pulled from the inner heap and it is exactly full (offset `4096`); the
512th allocation pulls the second page; the 600th returned pointer is
`8904`, which lies inside the second page `[8192, 12288)`.  The first page
holds `511 = (4096 - 8) / 8` slots after its 8-byte `Block` header. -/
theorem bump_second_page_at_512 :
    (bumpRun 4096 pageSupply bumpInit (List.replicate 511 (HeapOp.alloc 8))).2
      = ⟨1, 4096⟩ ∧
    (bumpRun 4096 pageSupply bumpInit (List.replicate 512 (HeapOp.alloc 8))).2.pagesPulled
      = 2 ∧
    (bumpRun 4096 pageSupply bumpInit (List.replicate 600 (HeapOp.alloc 8))).1.getD 599 0
      = 8904 ∧
    pageSupply 1 ≤ 8904 ∧ 8904 + 8 ≤ pageSupply 1 + 4096 := by
  have h511 : bumpRun 4096 pageSupply bumpInit (List.replicate 511 (HeapOp.alloc 8))
      = (4104 :: (List.range 510).map (fun i => 4112 + 8 * i), ⟨1, 4096⟩) := by
    have e1 : (511 : Nat) = 1 + 510 := by omega
    rw [e1, List.replicate_add, bumpRun_append]
    have hfirst : bumpRun 4096 pageSupply bumpInit (List.replicate 1 (HeapOp.alloc 8))
        = ([4104], ⟨1, 16⟩) := by decide
    rw [hfirst]
    have hmid := bump8_run 0 510 16 (by omega)
    rw [hmid]
    have : ∀ i, pageSupply 0 + 16 + 8 * i = 4112 + 8 * i := by
      intro i; simp [pageSupply]
    simp [this]
  have h600 : bumpRun 4096 pageSupply bumpInit (List.replicate 600 (HeapOp.alloc 8))
      = ((4104 :: (List.range 510).map (fun i => 4112 + 8 * i) ++ [8200])
           ++ (List.range 88).map (fun i => 8208 + 8 * i),
         ⟨2, 720⟩) := by
    have e1 : (600 : Nat) = 512 + 88 := by omega
    rw [e1, List.replicate_add, bumpRun_append, bump8_first512]
    have hmid := bump8_run 1 88 16 (by omega)
    rw [hmid]
    have : ∀ i, pageSupply 1 + 16 + 8 * i = 8208 + 8 * i := by
      intro i; simp [pageSupply]
    simp [this]
  refine ⟨by rw [h511], by rw [bump8_first512], ?_, by decide, by decide⟩
  rw [h600]
  have hlen : (4104 :: (List.range 510).map (fun i => 4112 + 8 * i) ++ [8200]).length
      = 512 := by simp
  rw [List.getD_eq_getElem?_getD, List.getElem?_append_right (by simp)]
  simp

lemma roundUp8_dvd (n : Nat) : 8 ∣ roundUp8 n := by unfold roundUp8; omega

lemma roundUp8_ge8 (n : Nat) (h : 1 ≤ n) : 8 ≤ roundUp8 n := by unfold roundUp8; omega

/-- Well-placed records in strictly increasing record order denote
pairwise distinct addresses, given disjoint pages. -/
lemma recAddr_ne (A : Nat) (supply : Nat → Nat) (hgs : GoodSupply A supply)
    (r r' : Nat × Nat) (hr : RecIn A r) (hr' : RecIn A r') (hlt : recLt r r') :
    recAddr supply r ≠ recAddr supply r' := by
  obtain ⟨-, -, hdisj⟩ := hgs
  rcases hlt with h | ⟨h1, h2⟩
  · rcases hdisj r.1 r'.1 h with hd | hd <;>
      · unfold recAddr RecIn at *
        omega
  · unfold recAddr RecIn at *
    rw [h1]
    omega

/-- The pointers denoted by a sorted list of well-placed records are
8-byte aligned, non-null, and pairwise distinct. -/
lemma records_ptrsOK (A : Nat) (supply : Nat → Nat) (hgs : GoodSupply A supply)
    (recs : List (Nat × Nat)) (hin : ∀ r ∈ recs, RecIn A r)
    (hp : recs.Pairwise recLt) :
    (∀ q ∈ recs.map (recAddr supply), 8 ∣ q ∧ q ≠ 0) ∧
    (recs.map (recAddr supply)).Pairwise (· ≠ ·) := by
  constructor
  · intro q hq
    obtain ⟨r, hr, rfl⟩ := List.mem_map.1 hq
    obtain ⟨hdvd, hne, -⟩ := hgs
    have := (hin r hr).2.2
    have := hdvd r.1
    have h0 : supply r.1 ≠ 0 := hne r.1
    unfold recAddr
    constructor
    · omega
    · omega
  · rw [List.pairwise_map]
    refine (hp.imp_of_mem ?_)
    intro r r' hr hr' hlt
    exact recAddr_ne A supply hgs r r' (hin r hr) (hin r' hr') hlt

/-- Every run of the bump heap on positive-size requests produces a
strictly increasing list of well-placed allocation records. -/
lemma bumpRun_records (A : Nat) (supply : Nat → Nat) (hA : 8 ≤ A) :
    ∀ (ops : List HeapOp) (st : BumpState), BumpInv A st →
      (∀ op ∈ ops, opPos op = true) →
      ∃ recs : List (Nat × Nat),
        (bumpRun A supply st ops).1 = recs.map (recAddr supply) ∧
        (∀ r ∈ recs, RecIn A r ∧ recGe st r) ∧
        recs.Pairwise recLt := by
  intro ops
  induction ops with
  | nil =>
    intro st _ _
    exact ⟨[], by simp [bumpRun], by simp, by simp⟩
  | cons op ops ih =>
    intro st hst hops
    have hops' : ∀ o ∈ ops, opPos o = true := fun o h => hops o (by simp [h])
    cases op with
    | dealloc p s =>
      obtain ⟨recs, h1, h2, h3⟩ := ih st hst hops'
      exact ⟨recs, by simpa [bumpRun, bumpStep] using h1, h2, h3⟩
    | alloc s =>
      have hs : 1 ≤ s := by
        have := hops _ (List.mem_cons_self _ _)
        simpa [opPos] using this
      have ha8 : 8 ≤ roundUp8 s := roundUp8_ge8 s hs
      have hadvd : 8 ∣ roundUp8 s := roundUp8_dvd s
      obtain ⟨ho1, ho2, ho3, ho4⟩ := hst
      -- the state after the conditional refill
      by_cases href : st.pagesPulled = 0 ∨ st.offset + roundUp8 s > A
      · -- refill happened
        have hst1 : BumpInv A (bumpRefill st) := by
          unfold BumpInv bumpRefill; simp; omega
        by_cases hthrow : (bumpRefill st).offset + roundUp8 s > A
        · obtain ⟨recs, h1, h2, h3⟩ := ih (bumpRefill st) hst1 hops'
          refine ⟨recs, ?_, ?_, h3⟩
          · simpa [bumpRun, bumpStep, bumpAllocate, if_pos href, if_pos hthrow] using h1
          · intro r hr
            refine ⟨(h2 r hr).1, ?_⟩
            have hge := (h2 r hr).2
            simp only [recGe, bumpRefill] at hge ⊢
            omega
        · -- allocation succeeds out of the fresh page
          have hpp : (bumpRefill st).pagesPulled = st.pagesPulled + 1 := rfl
          have hof : (bumpRefill st).offset = 8 := rfl
          set st2 : BumpState := ⟨st.pagesPulled + 1, 8 + roundUp8 s⟩ with hst2
          have hst2i : BumpInv A st2 := by
            unfold BumpInv at *
            simp only [hst2]
            refine ⟨by omega, by omega, by omega, by omega⟩
          obtain ⟨recs, h1, h2, h3⟩ := ih st2 hst2i hops'
          refine ⟨(st.pagesPulled, 8) :: recs, ?_, ?_, ?_⟩
          · have hrun : bumpRun A supply st (HeapOp.alloc s :: ops)
                = ((supply st.pagesPulled + 8) :: (bumpRun A supply st2 ops).1,
                   (bumpRun A supply st2 ops).2) := by
              simp only [bumpRun, bumpStep, bumpAllocate, if_pos href, if_neg hthrow]
              simp [bumpHead, bumpRefill, hst2]
            rw [hrun, h1]
            simp [recAddr]
          · intro r hr
            rcases List.mem_cons.1 hr with rfl | hr
            · refine ⟨⟨le_refl 8, by omega, by omega⟩, ?_⟩
              simp only [recGe]
              omega
            · refine ⟨(h2 r hr).1, ?_⟩
              have hge := (h2 r hr).2
              simp only [recGe, hst2] at hge ⊢
              omega
          · rw [List.pairwise_cons]
            refine ⟨?_, h3⟩
            intro r hr
            have hge := (h2 r hr).2
            have hri := (h2 r hr).1
            simp only [recGe, hst2] at hge
            simp only [RecIn] at hri
            simp only [recLt]
            omega
      · -- no refill: the request fits in the current page
        push_neg at href
        obtain ⟨hpp0, hfits⟩ := href
        set st2 : BumpState := ⟨st.pagesPulled, st.offset + roundUp8 s⟩ with hst2
        have hst2i : BumpInv A st2 := by
          unfold BumpInv
          simp only [hst2]
          refine ⟨by omega, by omega, by omega, by omega⟩
        obtain ⟨recs, h1, h2, h3⟩ := ih st2 hst2i hops'
        have hthrow : ¬ (st.offset + roundUp8 s > A) := by omega
        refine ⟨(st.pagesPulled - 1, st.offset) :: recs, ?_, ?_, ?_⟩
        · have hrefneg : ¬(st.pagesPulled = 0 ∨ st.offset + roundUp8 s > A) := by
            omega
          have hrun : bumpRun A supply st (HeapOp.alloc s :: ops)
              = ((supply (st.pagesPulled - 1) + st.offset)
                   :: (bumpRun A supply st2 ops).1,
                 (bumpRun A supply st2 ops).2) := by
            simp only [bumpRun, bumpStep, bumpAllocate, if_neg hrefneg]
            rw [if_neg (by omega)]
            simp [bumpHead, hst2, hpp0]
          rw [hrun, h1]
          simp [recAddr]
        · intro r hr
          rcases List.mem_cons.1 hr with rfl | hr
          · refine ⟨⟨ho4 hpp0, by omega, ho2⟩, ?_⟩
            simp only [recGe]
            omega
          · refine ⟨(h2 r hr).1, ?_⟩
            have hge := (h2 r hr).2
            simp only [recGe, hst2] at hge ⊢
            omega
        · rw [List.pairwise_cons]
          refine ⟨?_, h3⟩
          intro r hr
          have hge := (h2 r hr).2
          have hri := (h2 r hr).1
          simp only [recGe, hst2] at hge
          simp only [RecIn] at hri
          simp only [recLt]
          omega

/-- **C3, counterexample.** The plain bump-pointer layer fails on its own:
with 4 KiB pages and the page source supplying pages without limit
(`pageSupply` never fails), `allocate(4089)` on a fresh `SimpleBumpPtr`
throws `std::bad_alloc` (modelled by `none`), because
`roundUp8 4089 = 4096` plus the 8-byte page header exceeds the page size.
So an allocation failure can originate in a layer other than the page
source, refuting the claim as stated. -/
theorem bump_allocate_oversize_fails :
    (bumpAllocate 4096 pageSupply bumpInit 4089).1 = none := by decide

/-- **C8, the code at the failing input.** On a freshly constructed bump
heap (`head = 0`, `offset = 0`), `allocate(8, &allocated)` takes the
`remaining != 0` branch without pulling a page and returns
`(char*)head + offset = NULL`, reporting `allocated = 8`, and leaves the
heap with `head` still null and `offset = 4096`; the claim instead
requires a valid pointer into the current page. -/
theorem bump_allocate2_fresh_returns_null :
    bumpAllocate2 4096 pageSupply bumpInit 8 = ((0, 8), ⟨0, 4096⟩) := by decide

/-- The `TotalFit` slots of a `BlockAlloc` page end within the page
(`assert(sizeof(Block) <= SourceHeap::AllocSize)` in the constructor). -/
lemma blkTotalFit_le (A ElemSize : Nat) (he : 1 ≤ ElemSize)
    (hfit : 8 + blkElem ElemSize ≤ A) :
    8 + blkTotalFit A ElemSize * blkElem ElemSize ≤ A := by
  have he8 : 8 ≤ blkElem ElemSize := roundUp8_ge8 ElemSize he
  set e := blkElem ElemSize with hee
  set bl := A - (8 + e) with hbl
  set blr := bl - bl % 8 with hblr
  have hq : blr / e * e ≤ blr := Nat.div_mul_le_self blr e
  have hTF : blkTotalFit A ElemSize = blr / e + 1 := rfl
  rw [hTF, Nat.succ_mul]
  omega

/-- Every run of the block heap produces a strictly increasing list of
well-placed allocation records. -/
lemma blkRunN_records (A ElemSize : Nat) (supply : Nat → Nat)
    (he : 1 ≤ ElemSize) (hfit : 8 + blkElem ElemSize ≤ A) :
    ∀ (n : Nat) (st : BlkState), BlkInv A ElemSize st →
      ∃ recs : List (Nat × Nat),
        (blkRunN A ElemSize supply st n).1 = recs.map (recAddr supply) ∧
        (∀ r ∈ recs, RecIn A r ∧ blkRecGe A ElemSize st r) ∧
        recs.Pairwise recLt := by
  have he8 : 8 ≤ blkElem ElemSize := roundUp8_ge8 ElemSize he
  have hedvd : 8 ∣ blkElem ElemSize := roundUp8_dvd ElemSize
  have hTfit := blkTotalFit_le A ElemSize he hfit
  have hT1 : 1 ≤ blkTotalFit A ElemSize := by
    unfold blkTotalFit
    exact Nat.succ_le_succ (Nat.zero_le _)
  intro n
  induction n with
  | zero =>
    intro st _
    exact ⟨[], by simp [blkRunN], by simp, by simp⟩
  | succ n ih =>
    intro st hst
    obtain ⟨hi1, hi2⟩ := hst
    -- the state after the conditional refill
    set st1 := if st.pagesPulled = 0 ∨ st.headIndex = blkTotalFit A ElemSize
      then blkRefill st else st with hst1
    have hpp1 : st1.pagesPulled ≠ 0 ∧ st1.headIndex < blkTotalFit A ElemSize ∧
        st.pagesPulled ≤ st1.pagesPulled ∧
        (st.pagesPulled = st1.pagesPulled → st.headIndex = st1.headIndex) := by
      rw [hst1]
      split
      · rename_i h
        simp only [blkRefill]
        omega
      · rename_i h
        push_neg at h
        omega
    obtain ⟨hpp, hlt, hmono1, hmono2⟩ := hpp1
    have hmono3 : st.pagesPulled = st1.pagesPulled →
        st.headIndex * blkElem ElemSize = st1.headIndex * blkElem ElemSize := by
      intro h
      rw [hmono2 h]
    set st2 : BlkState := ⟨st1.pagesPulled, st1.headIndex + 1⟩ with hst2
    have hst2i : BlkInv A ElemSize st2 := by
      constructor
      · simp only [hst2]; omega
      · simp only [hst2]; omega
    obtain ⟨recs, h1, h2, h3⟩ := ih st2 hst2i
    have hmul : (st1.headIndex + 1) * blkElem ElemSize
        = st1.headIndex * blkElem ElemSize + blkElem ElemSize := Nat.succ_mul _ _
    have hmulT : (st1.headIndex + 1) * blkElem ElemSize
        ≤ blkTotalFit A ElemSize * blkElem ElemSize :=
      Nat.mul_le_mul_right _ (by omega)
    refine ⟨(st1.pagesPulled - 1, 8 + st1.headIndex * blkElem ElemSize) :: recs,
      ?_, ?_, ?_⟩
    · have hrun : blkRunN A ElemSize supply st (n + 1)
          = ((supply (st1.pagesPulled - 1) + 8 + st1.headIndex * blkElem ElemSize)
               :: (blkRunN A ElemSize supply st2 n).1,
             (blkRunN A ElemSize supply st2 n).2) := by
        simp only [blkRunN, blkAllocate, ← hst1, hst2]
      rw [hrun, h1]
      simp only [List.map_cons, recAddr, Nat.add_assoc]
    · intro r hr
      rcases List.mem_cons.1 hr with rfl | hr
      · have hdvd : 8 ∣ st1.headIndex * blkElem ElemSize :=
          Dvd.dvd.mul_left hedvd _
        refine ⟨⟨by omega, by omega, by omega⟩, ?_⟩
        simp only [blkRecGe]
        omega
      · refine ⟨(h2 r hr).1, ?_⟩
        have hge := (h2 r hr).2
        simp only [blkRecGe, hst2] at hge ⊢
        omega
    · rw [List.pairwise_cons]
      refine ⟨?_, h3⟩
      intro r hr
      have hge := (h2 r hr).2
      simp only [blkRecGe, hst2] at hge
      simp only [recLt]
      omega

/-- The invariant holds in the fresh bump state. -/
lemma bumpInv_init (A : Nat) : BumpInv A bumpInit :=
  ⟨Nat.zero_le A, ⟨0, rfl⟩, fun _ => rfl, fun h => absurd rfl h⟩

/-- The invariant holds in the fresh block state. -/
lemma blkInv_init (A ElemSize : Nat) : BlkInv A ElemSize blkInit :=
  ⟨Nat.zero_le _, fun _ => rfl⟩

/-- **C2 (amended).** For every sequence of `allocate(s)`/`deallocate(p, s)`
calls with sizes `s ≥ 1` on a bump heap, and every number of `allocate`
calls on a block heap, over the page source: every returned pointer is
8-byte aligned, non-null, and distinct from every other returned pointer
(deallocation being a no-op, all allocations are simultaneously live). -/
theorem allocate_pointers_ok
    (A : Nat) (supply : Nat → Nat) (ElemSize : Nat) (ops : List HeapOp) (n : Nat)
    (hA : 8 ≤ A) (hgs : GoodSupply A supply)
    (hpos : ∀ op ∈ ops, opPos op = true)
    (he : 1 ≤ ElemSize) (hfit : 8 + blkElem ElemSize ≤ A) :
    PtrsOK (bumpRun A supply bumpInit ops).1 ∧
    PtrsOK (blkRunN A ElemSize supply blkInit n).1 := by
  constructor
  · obtain ⟨recs, h1, h2, h3⟩ :=
      bumpRun_records A supply hA ops bumpInit (bumpInv_init A) hpos
    rw [h1]
    exact records_ptrsOK A supply hgs recs (fun r hr => (h2 r hr).1) h3
  · obtain ⟨recs, h1, h2, h3⟩ :=
      blkRunN_records A ElemSize supply he hfit n blkInit (blkInv_init A ElemSize)
    rw [h1]
    exact records_ptrsOK A supply hgs recs (fun r hr => (h2 r hr).1) h3

/-- The example page supply satisfies the page-source guarantees. -/
lemma goodSupply_pageSupply : GoodSupply 4096 pageSupply := by
  refine ⟨fun k => ?_, fun k => ?_, fun j k h => Or.inl ?_⟩ <;>
    · unfold pageSupply
      omega

/-- Witness for the amended C2 at a concrete instance. -/
theorem allocate_pointers_ok_witness :
    PtrsOK (bumpRun 4096 pageSupply bumpInit
        [HeapOp.alloc 8, HeapOp.dealloc 4104 8, HeapOp.alloc 16]).1 ∧
    PtrsOK (blkRunN 4096 16 pageSupply blkInit 3).1 :=
  allocate_pointers_ok 4096 pageSupply 16
    [HeapOp.alloc 8, HeapOp.dealloc 4104 8, HeapOp.alloc 16] 3
    (by omega) goodSupply_pageSupply (by decide) (by omega) (by decide)

/-- **C2, counterexample.** As literally stated the claim fails for
zero-byte requests: two consecutive `allocate(0)` calls on a fresh bump
heap both return the pointer `4104` (the rounded size is `0`, so the
offset does not advance), so live pointers are not pairwise distinct. -/
theorem bump_zero_size_allocs_collide :
    (bumpRun 4096 pageSupply bumpInit [HeapOp.alloc 0, HeapOp.alloc 0]).1
      = [4104, 4104] ∧
    ¬ (bumpRun 4096 pageSupply bumpInit [HeapOp.alloc 0, HeapOp.alloc 0]).1.Pairwise
        (fun p q => p ≠ q) := by
  constructor
  · decide
  · decide

/-- **C3 (amended).** Given non-null inner results, every heap layer
above the page source is infallible except the plain bump pointer:
(i) the bump pointer succeeds whenever the rounded request plus the
8-byte page header fits in a page; (ii) it throws `bad_alloc` (returns
`none`) exactly when it does not fit, even though the page source
delivered a page; and each of (iii) the bump-with-malloc-fallback,
(iv) the freelist, (v) the self-locked freelist, (vi) the block,
(vii) the locked, (viii) the header, (ix) the owner-tagged, (x) the
zero-fill, and (xi) the per-thread private layer returns a result (a
non-null pointer, or the non-null inner result it forwards) and raises
no error. -/
theorem heap_layers_failure_model (A ElemSize : Nat)
    (supply msupply inner raw : Nat → Nat) (self : Nat)
    (hA : 8 ≤ A) (hinner : ∀ k, inner k ≠ 0) :
    (∀ (st : BumpState) (s : Nat), roundUp8 s + 8 ≤ A →
        ((bumpAllocate A supply st s).1).isSome = true) ∧
    (∀ (st : BumpState) (s : Nat), st.pagesPulled = 0 ∨ 8 ≤ st.offset →
        A < roundUp8 s + 8 → (bumpAllocate A supply st s).1 = none) ∧
    (∀ (st : FbState) (s : Nat), ((fbAllocate A supply msupply st s).1).isSome = true) ∧
    (∀ st : FLState, ((flStep inner st FLOp.alloc).1).isSome = true) ∧
    (∀ st : FLState, (∀ p ∈ st.pool, p ≠ 0) → (slflAllocate inner st).1.1 ≠ 0) ∧
    (∀ st : BlkState, (blkAllocate A ElemSize supply st).1 ≠ 0) ∧
    (∀ r : Option Nat, r.isSome = true → (lockedAllocate r).isSome = true) ∧
    (∀ (hs : Nat) (r : Option Nat), r.isSome = true →
        (addHeaderAllocate hs r).isSome = true) ∧
    (∀ st : OTState, (otAllocate raw self st).1 ≠ 0) ∧
    (∀ r : Option Nat, r.isSome = true → (zeroOutAllocate r).isSome = true) ∧
    (∀ r : Option Nat, r.isSome = true →
        (threadAwarePrivateAllocate r).isSome = true) := by
  refine ⟨?_, ?_, ?_, ?_, ?_, ?_, ?_, ?_, ?_, ?_, ?_⟩
  · intro st s hs
    simp only [bumpAllocate]
    by_cases h : st.pagesPulled = 0 ∨ st.offset + roundUp8 s > A
    · rw [if_pos h, if_neg (by simp only [bumpRefill]; omega)]
      rfl
    · rw [if_neg h, if_neg (by omega)]
      rfl
  · intro st s hst hs
    simp only [bumpAllocate]
    by_cases h : st.pagesPulled = 0 ∨ st.offset + roundUp8 s > A
    · rw [if_pos h, if_pos (by simp only [bumpRefill]; omega)]
    · rw [if_neg h, if_pos (by omega)]
  · intro st s
    simp only [fbAllocate]
    by_cases h : 8 + roundUp8 s > A
    · rw [if_pos h]
      rfl
    · rw [if_neg h]
      rfl
  · intro st
    cases h : st.pool <;> simp [flStep, flAllocate, h]
  · intro st hpool
    cases h : st.pool with
    | nil => simp only [slflAllocate, h]; exact hinner _
    | cons p rest => simp only [slflAllocate, h]; exact hpool p (by rw [h]; exact List.mem_cons_self _ _)
  · intro st
    simp only [blkAllocate]
    omega
  · intro r h
    exact h
  · intro hs r h
    cases r with
    | none => cases h
    | some p => rfl
  · intro st
    simp only [otAllocate]
    omega
  · intro r h
    exact h
  · intro r h
    exact h

/-- Witness for the amended C3 at a concrete instance. -/
theorem heap_layers_failure_model_witness :
    (∀ (st : BumpState) (s : Nat), roundUp8 s + 8 ≤ 4096 →
        ((bumpAllocate 4096 pageSupply st s).1).isSome = true) ∧
    (∀ (st : BumpState) (s : Nat), st.pagesPulled = 0 ∨ 8 ≤ st.offset →
        4096 < roundUp8 s + 8 → (bumpAllocate 4096 pageSupply st s).1 = none) ∧
    (∀ (st : FbState) (s : Nat),
        ((fbAllocate 4096 pageSupply pageSupply st s).1).isSome = true) ∧
    (∀ st : FLState, ((flStep pageSupply st FLOp.alloc).1).isSome = true) ∧
    (∀ st : FLState, (∀ p ∈ st.pool, p ≠ 0) →
        (slflAllocate pageSupply st).1.1 ≠ 0) ∧
    (∀ st : BlkState, (blkAllocate 4096 16 pageSupply st).1 ≠ 0) ∧
    (∀ r : Option Nat, r.isSome = true → (lockedAllocate r).isSome = true) ∧
    (∀ (hs : Nat) (r : Option Nat), r.isSome = true →
        (addHeaderAllocate hs r).isSome = true) ∧
    (∀ st : OTState, (otAllocate pageSupply 5 st).1 ≠ 0) ∧
    (∀ r : Option Nat, r.isSome = true → (zeroOutAllocate r).isSome = true) ∧
    (∀ r : Option Nat, r.isSome = true →
        (threadAwarePrivateAllocate r).isSome = true) :=
  heap_layers_failure_model 4096 16 pageSupply pageSupply pageSupply pageSupply 5
    (by omega) goodSupply_pageSupply.2.1

/-- A block deallocated into the pool either gets handed out by a later
allocation or is still pooled, as long as no `clear` intervenes. -/
lemma flRun_pool_mem (inner : Nat → Nat) :
    ∀ (ops : List FLOp) (st : FLState) (p : Nat),
      FLOp.clear ∉ ops → p ∈ st.pool →
      some (p, true) ∈ (flRun inner st ops).1 ∨ p ∈ (flRun inner st ops).2.pool := by
  intro ops
  induction ops with
  | nil =>
    intro st p _ hp
    right
    simpa [flRun] using hp
  | cons op ops ih =>
    intro st p hnc hp
    have hnc' : FLOp.clear ∉ ops := fun h => hnc (by simp [h])
    cases op with
    | alloc =>
      cases hpool : st.pool with
      | nil => rw [hpool] at hp; cases hp
      | cons q rest =>
        by_cases hq : q = p
        · left
          subst hq
          simp [flRun, flStep, flAllocate, hpool]
        · have hp' : p ∈ rest := by
            rw [hpool] at hp
            rcases List.mem_cons.1 hp with h | h
            · exact absurd h.symm hq
            · exact h
          have hrec := ih ⟨rest, st.innerCtr⟩ p hnc' hp'
          simp only [flRun, flStep, flAllocate, hpool]
          rcases hrec with h | h
          · exact Or.inl (List.mem_cons_of_mem _ h)
          · exact Or.inr h
    | dealloc q =>
      have hp' : p ∈ (flDealloc st q).pool := by
        unfold flDealloc
        split
        · exact hp
        · exact List.mem_cons_of_mem _ hp
      have hrec := ih (flDealloc st q) p hnc' hp'
      simp only [flRun, flStep]
      rcases hrec with h | h
      · exact Or.inl (List.mem_cons_of_mem _ h)
      · exact Or.inr h
    | clear => exact absurd (List.mem_cons_self _ _) hnc

/-- **C6.** After `deallocate(p, s)` with no intervening `clear()`: if the
pool has drained by some later point (the only situation in which the
inner heap is consulted for fresh memory), then some allocation in
between returned exactly `p`; moreover after `clear()` the pool is empty
and the next `allocate` delegates to the inner heap. -/
theorem freelist_returns_pooled_block (inner : Nat → Nat) (st : FLState)
    (p : Nat) (ops : List FLOp) (hp : p ≠ 0) (hnc : FLOp.clear ∉ ops) :
    ((flRun inner (flDealloc st p) ops).2.pool = [] →
       some (p, true) ∈ (flRun inner (flDealloc st p) ops).1) ∧
    (flClear st).pool = [] ∧
    (flStep inner (flClear st) FLOp.alloc).1 = some (inner st.innerCtr, false) := by
  refine ⟨?_, rfl, rfl⟩
  intro hempty
  have hmem : p ∈ (flDealloc st p).pool := by
    unfold flDealloc
    rw [if_neg hp]
    exact List.mem_cons_self _ _
  rcases flRun_pool_mem inner ops (flDealloc st p) p hnc hmem with h | h
  · exact h
  · rw [hempty] at h
    cases h

/-- Witness for C6 at a concrete instance. -/
theorem freelist_returns_pooled_block_witness :
    ((flRun pageSupply (flDealloc ⟨[], 0⟩ 16) [FLOp.alloc]).2.pool = [] →
       some (16, true) ∈ (flRun pageSupply (flDealloc ⟨[], 0⟩ 16) [FLOp.alloc]).1) ∧
    (flClear ⟨[], 0⟩).pool = [] ∧
    (flStep pageSupply (flClear ⟨[], 0⟩) FLOp.alloc).1
      = some (pageSupply 0, false) :=
  freelist_returns_pooled_block pageSupply ⟨[], 0⟩ 16 [FLOp.alloc]
    (by decide) (by decide)

/-- **C9.** Deallocating the null pointer is a no-op on both the freelist
heap and the self-locked freelist heap: the state (pool and inner heap)
is unchanged, so nothing is prepended and nothing is delegated. -/
theorem freelist_dealloc_null_noop (st : FLState) :
    flDealloc st 0 = st ∧ slflDealloc st 0 = st := by
  unfold flDealloc slflDealloc
  simp

/-- Every header this heap ever writes holds `self`, so a header equal to
`self` stays equal to `self` across any further allocations. -/
lemma otRun_preserves (raw : Nat → Nat) (self : Nat) :
    ∀ (sizes : List Nat) (st : OTState) (q : Nat), st.mem q = self →
      (otRun raw self st sizes).2.mem q = self := by
  intro sizes
  induction sizes with
  | nil => intro st q h; simpa [otRun] using h
  | cons sz sizes ih =>
    intro st q h
    simp only [otRun, otAllocate]
    apply ih
    by_cases hq : q = raw st.ctr <;> simp [hq, h]

/-- Every pointer returned by the run has its header equal to `self` in
the final memory. -/
lemma otRun_headers (raw : Nat → Nat) (self : Nat) :
    ∀ (sizes : List Nat) (st : OTState), ∀ p ∈ (otRun raw self st sizes).1,
      (otRun raw self st sizes).2.mem (p - 8) = self := by
  intro sizes
  induction sizes with
  | nil => intro st p hp; cases hp
  | cons sz sizes ih =>
    intro st p hp
    simp only [otRun, otAllocate] at hp ⊢
    rcases List.mem_cons.1 hp with rfl | hp
    · apply otRun_preserves
      simp
    · exact ih _ p hp

/-- **C7.** For every pointer `p` returned by an owner-tagged heap at
address `self`, reading the stored header back through `owner(p)` yields
`self`, and the owner assert in `deallocate(p, n)` passes. -/
theorem owner_tag_correct (raw : Nat → Nat) (self : Nat) (sizes : List Nat)
    (p : Nat) (hp : p ∈ (otRun raw self otInit sizes).1) :
    otOwner (otRun raw self otInit sizes).2 p = self ∧
    otDeallocOk (otRun raw self otInit sizes).2 self p = true := by
  have h := otRun_headers raw self sizes otInit p hp
  refine ⟨h, ?_⟩
  simp [otDeallocOk, otOwner, h]

/-- Witness for C7 at a concrete instance: the first of two allocations
from raw blocks at `4096 * (k + 1)` is `4104`, owned by the heap at `5`. -/
theorem owner_tag_correct_witness :
    otOwner (otRun pageSupply 5 otInit [8, 8]).2 4104 = 5 ∧
    otDeallocOk (otRun pageSupply 5 otInit [8, 8]).2 5 4104 = true :=
  owner_tag_correct pageSupply 5 [8, 8] 4104 (by decide)

lemma ringExtractBack_concat (l : List Nat) (v : Nat) :
    ringExtractBack (l ++ [v]) = (some v, l) := by
  simp [ringExtractBack]

/-- `wlStackRefill` delivers the head of the rest of the LIFO order. -/
lemma wlStackRefill_spec (st : WLState) (hwf : wlWF st) :
    (wlStackRefill st).1 = ((st.shared.map List.reverse).flatten).head? ∧
    wlWF (wlStackRefill st).2 ∧
    wlRem true (wlStackRefill st).2 = ((st.shared.map List.reverse).flatten).tail := by
  rcases st with ⟨cur, next, shared⟩
  cases shared with
  | nil =>
    refine ⟨rfl, ?_, ?_⟩
    · intro c hc
      cases hc
    · simp [wlStackRefill, popChunkC, wlRem]
  | cons c rest =>
    have hc : c ≠ [] := hwf c (List.mem_cons_self _ _)
    obtain ⟨l, v0, h⟩ := (List.eq_nil_or_concat c).resolve_left hc
    rw [List.concat_eq_append] at h
    subst h
    refine ⟨?_, ?_, ?_⟩
    · simp [wlStackRefill, popChunkC, ringExtractBack_concat]
    · simp only [wlStackRefill, popChunkC, ringExtractBack_concat]
      intro c' hc'
      exact hwf c' (List.mem_cons_of_mem _ hc')
    · simp [wlStackRefill, popChunkC, ringExtractBack_concat, wlRem]

/-- `wlFifoRefill` delivers the head of the rest of the FIFO order. -/
lemma wlFifoRefill_spec (st : WLState) (hwf : wlWF st) :
    (wlFifoRefill st).1 = (st.shared.flatten ++ (st.next.getD [])).head? ∧
    wlWF (wlFifoRefill st).2 ∧
    wlRem false (wlFifoRefill st).2 = (st.shared.flatten ++ (st.next.getD [])).tail := by
  rcases st with ⟨cur, next, shared⟩
  cases shared with
  | nil =>
    cases next with
    | none =>
      refine ⟨rfl, ?_, ?_⟩
      · intro c hc
        cases hc
      · simp [wlFifoRefill, popChunkC, wlRem]
    | some nx =>
      cases nx with
      | nil =>
        refine ⟨rfl, ?_, ?_⟩
        · intro c hc
          cases hc
        · simp [wlFifoRefill, popChunkC, ringExtractFront, wlRem]
      | cons v t =>
        refine ⟨rfl, ?_, ?_⟩
        · intro c hc
          cases hc
        · simp [wlFifoRefill, popChunkC, ringExtractFront, wlRem]
  | cons c rest =>
    have hc : c ≠ [] := hwf c (List.mem_cons_self _ _)
    obtain ⟨v, t, h⟩ : ∃ v t, c = v :: t := by
      cases c with
      | nil => exact absurd rfl hc
      | cons v t => exact ⟨v, t, rfl⟩
    subst h
    refine ⟨?_, ?_, ?_⟩
    · simp [wlFifoRefill, popChunkC, ringExtractFront]
    · simp only [wlFifoRefill, popChunkC, ringExtractFront]
      intro c' hc'
      exact hwf c' (List.mem_cons_of_mem _ hc')
    · simp [wlFifoRefill, popChunkC, ringExtractFront, wlRem]

/-- One `pop` on a well-formed worklist returns the head of the remaining
order and leaves its tail, preserving well-formedness. -/
lemma wlPop_spec (b : Bool) (st : WLState) (hwf : wlWF st) :
    (wlPop b st).1 = (wlRem b st).head? ∧
    wlWF (wlPop b st).2 ∧
    wlRem b (wlPop b st).2 = (wlRem b st).tail := by
  cases b with
  | true =>
    rcases st with ⟨cur, next, shared⟩
    cases next with
    | none =>
      have h := wlStackRefill_spec ⟨cur, none, shared⟩ hwf
      simpa [wlPop, wlRem] using h
    | some nx =>
      rcases List.eq_nil_or_concat nx with rfl | ⟨l, v0, h⟩
      · have h := wlStackRefill_spec ⟨cur, some [], shared⟩ hwf
        simpa [wlPop, ringExtractBack, wlRem] using h
      · rw [List.concat_eq_append] at h
        subst h
        refine ⟨?_, ?_, ?_⟩
        · simp [wlPop, ringExtractBack_concat, wlRem]
        · simp only [wlPop, ringExtractBack_concat]
          exact hwf
        · simp [wlPop, ringExtractBack_concat, wlRem]
  | false =>
    rcases st with ⟨cur, next, shared⟩
    cases cur with
    | none =>
      have h := wlFifoRefill_spec ⟨none, next, shared⟩ hwf
      simpa [wlPop, wlRem] using h
    | some cu =>
      cases cu with
      | nil =>
        have h := wlFifoRefill_spec ⟨some [], next, shared⟩ hwf
        simpa [wlPop, ringExtractFront, wlRem] using h
      | cons v t =>
        refine ⟨?_, ?_, ?_⟩
        · simp [wlPop, ringExtractFront, wlRem]
        · simp only [wlPop, ringExtractFront]
          exact hwf
        · simp [wlPop, ringExtractFront, wlRem]

/-- Popping with enough fuel returns exactly the remaining order (and the
pop after the last task comes back empty). -/
lemma wlPopN_eq_rem (b : Bool) :
    ∀ (n : Nat) (st : WLState), wlWF st → (wlRem b st).length ≤ n →
      wlPopN b (n + 1) st = wlRem b st := by
  intro n
  induction n with
  | zero =>
    intro st hwf hlen
    have hrem : wlRem b st = [] := by
      cases h : wlRem b st with
      | nil => rfl
      | cons v t => rw [h] at hlen; simp at hlen
    have h1 := (wlPop_spec b st hwf).1
    rw [hrem] at h1
    rcases hp : wlPop b st with ⟨o, st'⟩
    rw [hp] at h1
    simp only [List.head?_nil] at h1
    subst h1
    rw [hrem]
    have hunfold : wlPopN b (0 + 1) st
        = match wlPop b st with
          | (some v, st') => v :: wlPopN b 0 st'
          | (none, _) => [] := rfl
    rw [hunfold, hp]
  | succ n ih =>
    intro st hwf hlen
    obtain ⟨h1, h2, h3⟩ := wlPop_spec b st hwf
    rcases hp : wlPop b st with ⟨o, st'⟩
    rw [hp] at h1 h2 h3
    have hunfold : wlPopN b (n + 1 + 1) st
        = match wlPop b st with
          | (some v, st') => v :: wlPopN b (n + 1) st'
          | (none, _) => [] := rfl
    cases hrem : wlRem b st with
    | nil =>
      rw [hrem] at h1
      simp only [List.head?_nil] at h1
      subst h1
      rw [hunfold, hp]
    | cons v t =>
      rw [hrem] at h1 h3
      simp only [List.head?_cons, List.tail_cons] at h1 h3
      subst h1
      have hlen' : (wlRem b st').length ≤ n := by
        rw [h3]
        rw [hrem] at hlen
        simp only [List.length_cons] at hlen
        omega
      have hrec := ih st' h2 hlen'
      rw [hunfold, hp]
      show v :: wlPopN b (n + 1) st' = v :: t
      rw [hrec, h3]

/-- One `push` appends the task to the FIFO order, prepends it to the
LIFO order, and preserves well-formedness. -/
lemma wlPush_rem (b : Bool) (cap : Nat) (hc : 1 ≤ cap) (st : WLState)
    (hwf : wlWF st) (x : Nat) :
    wlWF (wlPush b cap st x) ∧
    wlRem b (wlPush b cap st x)
      = (if b then x :: wlRem b st else wlRem b st ++ [x]) := by
  have h0 : ringEmplaceBack cap [] x = some [x] := by
    simp only [ringEmplaceBack, List.length_nil, List.nil_append]
    rw [if_pos (by omega)]
  rcases st with ⟨cur, next, shared⟩
  cases next with
  | none =>
    refine ⟨?_, ?_⟩
    · simp only [wlPush, emplacei, h0]
      exact hwf
    · cases b <;> simp [wlPush, emplacei, h0, wlRem]
  | some nx =>
    by_cases hlen : nx.length < cap
    · have h1 : ringEmplaceBack cap nx x = some (nx ++ [x]) := by
        simp only [ringEmplaceBack]
        rw [if_pos hlen]
      refine ⟨?_, ?_⟩
      · simp only [wlPush, emplacei, h1]
        exact hwf
      · cases b <;> simp [wlPush, emplacei, h1, wlRem]
    · have h1 : ringEmplaceBack cap nx x = none := by
        simp only [ringEmplaceBack]
        rw [if_neg hlen]
      have hnx : nx ≠ [] := by
        intro h
        rw [h] at hlen
        simp at hlen
        omega
      refine ⟨?_, ?_⟩
      · cases b with
        | true =>
          simp only [wlPush, emplacei, h1, h0, pushChunkC]
          intro c hcm
          rcases List.mem_cons.1 hcm with rfl | hcm
          · exact hnx
          · exact hwf c hcm
        | false =>
          simp only [wlPush, emplacei, h1, h0, pushChunkC]
          intro c hcm
          rcases List.mem_append.1 hcm with hcm | hcm
          · exact hwf c hcm
          · rw [List.mem_singleton.1 hcm]
            exact hnx
      · cases b <;> simp [wlPush, emplacei, h1, h0, wlRem, pushChunkC]

/-- Pushing a list of tasks prepends its reverse to the LIFO order and
appends it to the FIFO order. -/
lemma wlPushAll_rem (b : Bool) (cap : Nat) (hc : 1 ≤ cap) :
    ∀ (xs : List Nat) (st : WLState), wlWF st →
      wlWF (wlPushAll b cap st xs) ∧
      wlRem b (wlPushAll b cap st xs)
        = (if b then xs.reverse ++ wlRem b st else wlRem b st ++ xs) := by
  intro xs
  induction xs with
  | nil =>
    intro st hwf
    refine ⟨hwf, ?_⟩
    cases b <;> simp [wlPushAll]
  | cons x xs ih =>
    intro st hwf
    have hp := wlPush_rem b cap hc st hwf x
    have hrec := ih (wlPush b cap st x) hp.1
    have hfold : wlPushAll b cap st (x :: xs)
        = wlPushAll b cap (wlPush b cap st x) xs := rfl
    refine ⟨by rw [hfold]; exact hrec.1, ?_⟩
    rw [hfold, hrec.2, hp.2]
    cases b <;> simp

/-- **C1.** Single-threaded chunked worklist, any chunk capacity `≥ 1`:
pushing `xs` into a fresh worklist and then popping until empty yields
exactly `xs` under the FIFO discipline and exactly `xs.reverse` under the
LIFO discipline (with `xs.length + 1` pops, the last pop comes back
empty).  Instantiated at capacity 4 and `xs = [1..10]` this gives the S4
order `10, 9, ..., 1`. -/
theorem worklist_discipline (cap : Nat) (xs : List Nat) (hc : 1 ≤ cap) :
    wlPopN false (xs.length + 1) (wlPushAll false cap wlInit xs) = xs ∧
    wlPopN true (xs.length + 1) (wlPushAll true cap wlInit xs) = xs.reverse := by
  have h0 : wlWF wlInit := by
    intro c hc'
    cases hc'
  have hri : ∀ b, wlRem b wlInit = [] := by
    intro b
    cases b <;> rfl
  obtain ⟨hwfF, hremF⟩ := wlPushAll_rem false cap hc xs wlInit h0
  obtain ⟨hwfL, hremL⟩ := wlPushAll_rem true cap hc xs wlInit h0
  rw [hri, if_neg (by simp)] at hremF
  rw [hri, if_pos rfl] at hremL
  simp only [List.nil_append, List.append_nil] at hremF hremL
  constructor
  · have := wlPopN_eq_rem false xs.length (wlPushAll false cap wlInit xs) hwfF
      (by rw [hremF])
    rw [this, hremF]
  · have := wlPopN_eq_rem true xs.length (wlPushAll true cap wlInit xs) hwfL
      (by rw [hremL]; simp)
    rw [this, hremL]

/-- Witness for C1: capacity 4, pushes `[1..10]`; FIFO pops `1..10`, LIFO
pops `10,9,8,7,6,5,4,3,2,1` (scenarios S3 and S4). -/
theorem worklist_discipline_witness :
    wlPopN false 11 (wlPushAll false 4 wlInit [1,2,3,4,5,6,7,8,9,10])
      = [1,2,3,4,5,6,7,8,9,10] ∧
    wlPopN true 11 (wlPushAll true 4 wlInit [1,2,3,4,5,6,7,8,9,10])
      = [10,9,8,7,6,5,4,3,2,1] :=
  worklist_discipline 4 [1,2,3,4,5,6,7,8,9,10] (by omega)

/-- **C5.** A push that finds `next` full publishes exactly that chunk
into the shared container and places the new task in a freshly created
chunk (`cur` unchanged); a push onto a non-full existing `next` only
extends that chunk (`cur` and the shared container unchanged). -/
theorem push_promotes_full_next (isStack : Bool) (cap : Nat) (st : WLState)
    (x : Nat) (nx : List Nat) (hc : 1 ≤ cap) (hnext : st.next = some nx) :
    (cap ≤ nx.length →
       wlPush isStack cap st x
         = ⟨st.cur, some [x], pushChunkC isStack st.shared nx⟩) ∧
    (nx.length < cap →
       wlPush isStack cap st x = ⟨st.cur, some (nx ++ [x]), st.shared⟩) := by
  have h0 : ringEmplaceBack cap [] x = some [x] := by
    simp only [ringEmplaceBack, List.length_nil, List.nil_append]
    rw [if_pos (by omega)]
  constructor
  · intro hfull
    have h1 : ringEmplaceBack cap nx x = none := by
      simp only [ringEmplaceBack]
      rw [if_neg (by omega)]
    simp [wlPush, emplacei, hnext, h1, h0]
  · intro hlen
    have h1 : ringEmplaceBack cap nx x = some (nx ++ [x]) := by
      simp only [ringEmplaceBack]
      rw [if_pos hlen]
    simp [wlPush, emplacei, hnext, h1]

/-- Witness for C5: a LIFO worklist with a full 2-slot `next` promotes it
and starts `[9]`; the same state below capacity only extends `next`. -/
theorem push_promotes_full_next_witness :
    (2 ≤ ([1, 2] : List Nat).length →
       wlPush true 2 ⟨none, some [1, 2], []⟩ 9
         = ⟨none, some [9], pushChunkC true [] [1, 2]⟩) ∧
    (([1, 2] : List Nat).length < 2 →
       wlPush true 2 ⟨none, some [1, 2], []⟩ 9
         = ⟨none, some ([1, 2] ++ [9]), []⟩) :=
  push_promotes_full_next true 2 ⟨none, some [1, 2], []⟩ 9 [1, 2]
    (by omega) rfl

/-- **C10.** Whenever `emplacei` creates a new chunk (because `next` was
absent or full), the `emplace_back` into the fresh empty chunk succeeds
provided the chunk capacity is at least 1, so the `assert(retval)` after
it never fires and no task is dropped: the returned slot is always
non-null. -/
theorem emplace_into_fresh_chunk_succeeds (isStack : Bool) (cap : Nat)
    (st : WLState) (x : Nat) (hc : 1 ≤ cap) :
    (emplacei isStack cap st x).1 = true := by
  have h0 : ringEmplaceBack cap [] x = some [x] := by
    simp only [ringEmplaceBack, List.length_nil, List.nil_append]
    rw [if_pos (by omega)]
  rcases st with ⟨cur, next, shared⟩
  cases next with
  | none => simp [emplacei, h0]
  | some nx =>
    cases h1 : ringEmplaceBack cap nx x with
    | some nx' => simp [emplacei, h1]
    | none => simp [emplacei, h1, h0]

/-- Witness for C10: a push onto a worklist whose `next` chunk is full. -/
theorem emplace_into_fresh_chunk_succeeds_witness :
    (emplacei true 1 ⟨none, some [3], [[2], [1]]⟩ 4).1 = true :=
  emplace_into_fresh_chunk_succeeds true 1 ⟨none, some [3], [[2], [1]]⟩ 4
    (by omega)

end GaloisMM
